import Mathlib

/-!
Verification development for the grid-backend service.

The service (src/scripts/applyMask.js together with src/middileware.js)
assigns unique usernames to cells of a 256 x 256 grid stored in two tables:
`cells (cell_id, x, y, filled, is_mask)` and `usernames (username, cell_id)`.

This file gives a shallow embedding of the relevant code paths:
- the inline `/admin/upload` route handler (per-candidate transactions),
- `processUsernamesUpload` and the `/admin/upload-confirm` route (one outer
  transaction, season-limit check),
- the `/admin/upload-preview` route (read-only partition),
- the `applyMask` bitmap-projection script,
- the `adminAuth` middleware,
together with a two-thread interleaving semantics for the upload route and a
fault-injection variant of both allocation routes, used to settle concurrency
and error-handling claims.

Database state is modelled as explicit lists; SQL statements become list
operations; JS string normalization (`trim().toLowerCase()`) is modelled on
the underlying character lists for the ASCII range.
-/

namespace GridBackend

/-- Model of JS `String.prototype.toLowerCase` on one ASCII character. -/
def jsLowerChar (c : Char) : Char :=
  if 65 ≤ c.toNat ∧ c.toNat ≤ 90 then Char.ofNat (c.toNat + 32) else c

/-- Model of the whitespace class stripped by JS `String.prototype.trim`. -/
def jsIsWhitespace (c : Char) : Bool :=
  c = ' ' || c = '\t' || c = '\n' || c = '\r'

/-- Model of JS `String.prototype.trim`: drop whitespace at both ends. -/
def jsTrim (s : String) : String :=
  String.mk ((s.data.dropWhile jsIsWhitespace).reverse.dropWhile jsIsWhitespace).reverse

/-- Model of JS `String.prototype.toLowerCase` (ASCII range). -/
def jsToLower (s : String) : String :=
  String.mk (s.data.map jsLowerChar)

/-- The normalization `raw.trim().toLowerCase()` applied by every handler. -/
def normalizeName (s : String) : String :=
  jsToLower (jsTrim s)

/-- One row of the `cells` table, restricted to the columns the allocation
paths read or write (`x`, `y`, `is_mask` never occur on those paths). -/
structure Cell where
  cell_id : Nat
  filled : Bool
deriving DecidableEq

/-- One row of the `usernames` table. -/
structure ClaimRow where
  username : String
  cell_id : Nat
deriving DecidableEq

/-- The database state seen by the server: the two tables. -/
structure DBState where
  cells : List Cell
  usernames : List ClaimRow
deriving DecidableEq

/-- `SELECT 1 FROM usernames WHERE username = $1` tested for non-emptiness. -/
def existsUsername (db : DBState) (u : String) : Bool :=
  db.usernames.any (fun r => r.username == u)

/-- `SELECT cell_id FROM cells WHERE filled = FALSE ... LIMIT 1`. -/
def selectFreeCell (db : DBState) : Option Nat :=
  (db.cells.find? (fun c => c.filled == false)).map (fun c => c.cell_id)

/-- `INSERT INTO usernames (username, cell_id) VALUES ($1, $2)`. -/
def insertClaim (db : DBState) (u : String) (cid : Nat) : DBState :=
  { db with usernames := db.usernames ++ [⟨u, cid⟩] }

/-- The same insert with `ON CONFLICT DO NOTHING` (used by `/admin/upload`):
a row whose username is already present is silently not inserted. -/
def insertClaimOnConflictDoNothing (db : DBState) (u : String) (cid : Nat) : DBState :=
  if existsUsername db u then db else insertClaim db u cid

/-- `UPDATE cells SET filled = TRUE WHERE cell_id = $1`. -/
def markFilled (db : DBState) (cid : Nat) : DBState :=
  { db with
    cells := db.cells.map (fun c => if c.cell_id == cid then { c with filled := true } else c) }

/-- `SELECT COUNT(*) FROM usernames`. -/
def claimCount (db : DBState) : Nat :=
  db.usernames.length

/-- Number of rows satisfying `filled = FALSE` in the `cells` table. -/
def freeCount (db : DBState) : Nat :=
  (db.cells.filter (fun c => c.filled == false)).length

/-- The capacity constant from the server source. -/
def SEASON_1_LIMIT : Nat := 12000

/-- Sequential model of the `/admin/upload` route handler loop: for each raw
name, normalize; count empty as skipped; count an existing username as
skipped; stop the whole batch when no free cell remains; otherwise insert the
claim (`ON CONFLICT DO NOTHING`), mark the selected cell filled and count the
candidate as added.  There is no season-limit check on this path. -/
def adminUpload (db : DBState) (names : List String) (added skipped : Nat) : DBState × Nat × Nat :=
  match names with
  | [] => (db, added, skipped)
  | n :: rest =>
    let u := normalizeName n
    if u = "" then adminUpload db rest added (skipped + 1)
    else if existsUsername db u then adminUpload db rest added (skipped + 1)
    else
      match selectFreeCell db with
      | none => (db, added, skipped)
      | some cid =>
        adminUpload (markFilled (insertClaimOnConflictDoNothing db u cid) cid) rest
          (added + 1) skipped

/-- The loop body of `processUsernamesUpload`: like the upload route but with
the season-limit check `currentCount >= SEASON_1_LIMIT` before every
candidate, a plain `INSERT` (no conflict clause), and the locally incremented
`currentCount`. -/
def puLoop (db : DBState) (names : List String) (currentCount added skipped : Nat) :
    DBState × Nat × Nat :=
  match names with
  | [] => (db, added, skipped)
  | n :: rest =>
    if SEASON_1_LIMIT ≤ currentCount then (db, added, skipped)
    else
      let u := normalizeName n
      if u = "" then puLoop db rest currentCount added (skipped + 1)
      else if existsUsername db u then puLoop db rest currentCount added (skipped + 1)
      else
        match selectFreeCell db with
        | none => (db, added, skipped)
        | some cid =>
          puLoop (markFilled (insertClaim db u cid) cid) rest (currentCount + 1)
            (added + 1) skipped

/-- `processUsernamesUpload(client, usernames)`: read the committed claim
count once, then run the loop. -/
def processUsernamesUpload (db : DBState) (names : List String) : DBState × Nat × Nat :=
  puLoop db names (claimCount db) 0 0

/-- Sequential model of the `/admin/upload-confirm` route: one outer
transaction around `processUsernamesUpload`; without a storage failure the
transaction commits, so the route's effect is that of the inner function. -/
def uploadConfirm (db : DBState) (names : List String) : DBState × Nat × Nat :=
  processUsernamesUpload db names

/-- A mutating admin call, for stating invariants over call sequences. -/
inductive AdminCall where
  | upload (names : List String)
  | confirm (names : List String)

/-- State reached after one admin call. -/
def runCall (db : DBState) : AdminCall → DBState
  | .upload names => (adminUpload db names 0 0).1
  | .confirm names => (uploadConfirm db names).1

/-- State reached after a sequence of admin calls. -/
def runCalls (db : DBState) (calls : List AdminCall) : DBState :=
  calls.foldl runCall db

/-- Well-formedness of the `cells` table: `cell_id` is a primary key. -/
def wfCells (db : DBState) : Prop :=
  (db.cells.map (fun c => c.cell_id)).Nodup

/-- Number of claims referencing a given cell id. -/
def refCount (db : DBState) (cid : Nat) : Nat :=
  (db.usernames.filter (fun r => r.cell_id == cid)).length

/-- The cell/claim bijection invariant: a cell is filled exactly when one
claim references it, and every claim references an existing cell that no
other claim references. -/
def cellClaimBijection (db : DBState) : Prop :=
  (∀ c ∈ db.cells, c.filled = true ↔ refCount db c.cell_id = 1) ∧
  (∀ r ∈ db.usernames, (∃ c ∈ db.cells, c.cell_id = r.cell_id) ∧ refCount db r.cell_id = 1)

instance (db : DBState) : Decidable (wfCells db) :=
  inferInstanceAs (Decidable ((db.cells.map (fun c : Cell => c.cell_id)).Nodup))

instance (db : DBState) : Decidable (cellClaimBijection db) :=
  inferInstanceAs (Decidable
    ((∀ c ∈ db.cells, c.filled = true ↔ refCount db c.cell_id = 1) ∧
     (∀ r ∈ db.usernames, (∃ c ∈ db.cells, c.cell_id = r.cell_id) ∧ refCount db r.cell_id = 1)))

/-- One row of the preview handler's CSV stream: a truthy (non-empty) first
column is normalized and added to the JS `Set` (insertion order preserved,
duplicates dropped). -/
def previewStep (acc : List String) (name : String) : List String :=
  if name = "" then acc
  else if acc.contains (normalizeName name) then acc
  else acc ++ [normalizeName name]

/-- Deduplicating normalization pass of `/admin/upload-preview`. -/
def previewDedup (rows : List String) : List String :=
  rows.foldl previewStep []

/-- `SELECT username FROM usernames WHERE username = ANY($1)`. -/
def previewExisting (db : DBState) (list : List String) : List String :=
  (db.usernames.filter (fun r => list.contains r.username)).map (fun r => r.username)

/-- `list.filter((u) => !existing.includes(u))`. -/
def previewNew (list existing : List String) : List String :=
  list.filter (fun u => !existing.contains u)

/-- Response body of `/admin/upload-preview`. -/
structure PreviewResult where
  total_in_file : Nat
  already_exists : Nat
  ready_to_insert : Nat
  usernames : List String
deriving DecidableEq

/-- The `/admin/upload-preview` handler: it only issues `SELECT` statements,
so the database state passes through unchanged. -/
def previewHandler (db : DBState) (rows : List String) : DBState × PreviewResult :=
  let list := previewDedup rows
  let existing := previewExisting db list
  let newOnes := previewNew list existing
  (db, ⟨list.length, existing.length, newOnes.length, newOnes⟩)

/-- Grid side length from the mask script. -/
def GRID_SIZE : Nat := 256

/-- Brightness threshold from the mask script. -/
def THRESHOLD : Nat := 128

/-- The `is_mask` column of the `cells` table, keyed by the `(x, y)`
coordinates the mask script addresses cells by. -/
def MaskGrid : Type := Nat × Nat → Bool

/-- `UPDATE cells SET is_mask = TRUE WHERE x = $1 AND y = $2`. -/
def setMask (g : MaskGrid) (x y : Nat) : MaskGrid :=
  fun p => if p = (x, y) then true else g p

/-- Body of the inner pixel loop of `applyMask`: mask cell
`(x + 1, GRID_SIZE - y)` when the pixel brightness is below the threshold. -/
def maskPixelStep (img : Nat → Nat → Nat) (y : Nat) (g : MaskGrid) (x : Nat) : MaskGrid :=
  if img x y < THRESHOLD then setMask g (x + 1) (GRID_SIZE - y) else g

/-- Inner loop of `applyMask` over `x`. -/
def maskRow (img : Nat → Nat → Nat) (g : MaskGrid) (y : Nat) : MaskGrid :=
  (List.range GRID_SIZE).foldl (maskPixelStep img y) g

/-- The `applyMask` script: loop over `y` then `x`, thresholding the
grayscale image `img` (indexed `img x y` via `idx = y * GRID_SIZE + x`). -/
def applyMask (img : Nat → Nat → Nat) (g : MaskGrid) : MaskGrid :=
  (List.range GRID_SIZE).foldl (maskRow img) g

/-- A grid with no cell masked. -/
def initialUnmasked : MaskGrid :=
  fun _ => false

/-- The all-black bitmap (brightness 0 everywhere). -/
def allBlack : Nat → Nat → Nat :=
  fun _ _ => 0

/-- The all-white bitmap (brightness 255 everywhere). -/
def allWhite : Nat → Nat → Nat :=
  fun _ _ => 255

/-- JS falsiness of a string-valued header or environment variable:
`undefined` (here `none`) and the empty string are falsy. -/
def jsFalsyStr (s : Option String) : Bool :=
  s == none || s == some ""

/-- The `adminAuth` middleware (identical in src/middileware.js and in the
server file): the guarded handler runs exactly when
`!(!secret || secret !== process.env.ADMIN_SECRET)`. -/
def adminAuth (secret envSecret : Option String) : Bool :=
  !(jsFalsyStr secret || secret != envSecret)

/-- An admin route: the middleware answers 401 before the handler touches
storage; otherwise the handler runs (its numeric result models the HTTP
status it answers with). -/
def adminRoute (secret envSecret : Option String) (db : DBState)
    (handler : DBState → DBState × Nat) : DBState × Nat :=
  if adminAuth secret envSecret then handler db else (db, 401)

/-- Result of one upload-route iteration in the interleaved semantics. -/
inductive UOutcome where
  | addedO
  | skippedO
  | stoppedO
deriving DecidableEq

/-- Program counter of one request worker executing the `/admin/upload` loop
body on a single candidate: before the existence check, after it, holding a
selected cell id, or finished. -/
inductive UPhase where
  | start
  | checked
  | gotCell (cid : Nat)
  | done (o : UOutcome)
deriving DecidableEq

/-- One request worker: its raw candidate and its program counter. -/
structure UThread where
  raw : String
  pc : UPhase
deriving DecidableEq

/-- One scheduler quantum of a worker running the `/admin/upload` loop body.
Step boundaries sit at the `await` points of the source: the existence check,
the free-cell selection (whose `FOR UPDATE` lock does not outlive its own
autocommitted statement, since `BEGIN` is only issued afterwards), and the
per-candidate transaction `BEGIN; INSERT ... ON CONFLICT DO NOTHING;
UPDATE ... SET filled = TRUE; COMMIT` taken as one atomic step, after which
the worker unconditionally counts the candidate as added. -/
def uStep (db : DBState) (t : UThread) : DBState × UThread :=
  match t.pc with
  | .start =>
    let u := normalizeName t.raw
    if u = "" then (db, { t with pc := .done .skippedO })
    else if existsUsername db u then (db, { t with pc := .done .skippedO })
    else (db, { t with pc := .checked })
  | .checked =>
    match selectFreeCell db with
    | none => (db, { t with pc := .done .stoppedO })
    | some cid => (db, { t with pc := .gotCell cid })
  | .gotCell cid =>
    let u := normalizeName t.raw
    (markFilled (insertClaimOnConflictDoNothing db u cid) cid, { t with pc := .done .addedO })
  | .done _ => (db, t)

/-- Run two workers against the shared state under a schedule (`true` steps
the first worker, `false` the second). -/
def interleave (db : DBState) (t1 t2 : UThread) (sched : List Bool) : DBState × UThread × UThread :=
  match sched with
  | [] => (db, t1, t2)
  | b :: rest =>
    if b then
      let s := uStep db t1
      interleave s.1 s.2 t2 rest
    else
      let s := uStep db t2
      interleave s.1 t1 s.2 rest

/-- Fault-injected `/admin/upload` loop: the candidate at position `fault`
in the batch suffers a storage failure inside its per-candidate transaction,
which aborts that transaction only; the handler's catch block rolls back the
open transaction and answers 500 (the final `Bool` records the failure).
Candidates committed by earlier iterations are untouched. -/
def adminUploadFaultGo (db : DBState) (names : List String) (i fault added skipped : Nat) :
    DBState × Nat × Nat × Bool :=
  match names with
  | [] => (db, added, skipped, false)
  | n :: rest =>
    let u := normalizeName n
    if u = "" then adminUploadFaultGo db rest (i + 1) fault added (skipped + 1)
    else if existsUsername db u then adminUploadFaultGo db rest (i + 1) fault added (skipped + 1)
    else
      match selectFreeCell db with
      | none => (db, added, skipped, false)
      | some cid =>
        if i = fault then (db, added, skipped, true)
        else
          adminUploadFaultGo (markFilled (insertClaimOnConflictDoNothing db u cid) cid) rest
            (i + 1) fault (added + 1) skipped

/-- Fault-injected `/admin/upload` route. -/
def adminUploadFault (db : DBState) (names : List String) (fault : Nat) :
    DBState × Nat × Nat × Bool :=
  adminUploadFaultGo db names 0 fault 0 0

/-- Fault-injected `processUsernamesUpload` loop: the candidate at position
`fault` suffers a storage failure at its insert; the exception propagates to
the route handler. -/
def puLoopFault (db : DBState) (names : List String) (i fault currentCount added skipped : Nat) :
    DBState × Nat × Nat × Bool :=
  match names with
  | [] => (db, added, skipped, false)
  | n :: rest =>
    if SEASON_1_LIMIT ≤ currentCount then (db, added, skipped, false)
    else
      let u := normalizeName n
      if u = "" then puLoopFault db rest (i + 1) fault currentCount added (skipped + 1)
      else if existsUsername db u then
        puLoopFault db rest (i + 1) fault currentCount added (skipped + 1)
      else
        match selectFreeCell db with
        | none => (db, added, skipped, false)
        | some cid =>
          if i = fault then (db, added, skipped, true)
          else
            puLoopFault (markFilled (insertClaim db u cid) cid) rest (i + 1) fault
              (currentCount + 1) (added + 1) skipped

/-- Fault-injected `/admin/upload-confirm` route: the whole batch runs in one
transaction (`BEGIN` before `processUsernamesUpload`, `COMMIT` after), so
when the failure fires the catch block's `ROLLBACK` discards every
candidate's work and the route answers 500. -/
def uploadConfirmFault (db : DBState) (names : List String) (fault : Nat) :
    DBState × Nat × Nat × Bool :=
  let r := puLoopFault db names 0 fault (claimCount db) 0 0
  if r.2.2.2 then (db, 0, 0, true) else r

/-- A fresh database with a single free cell. -/
def dbOneFree : DBState :=
  ⟨[⟨1, false⟩], []⟩

/-- A fresh database with two free cells. -/
def dbTwoFree : DBState :=
  ⟨[⟨1, false⟩, ⟨2, false⟩], []⟩

/-- Distinct single-character usernames used to build large ledger states. -/
def uname (i : Nat) : String :=
  String.mk [Char.ofNat (1000 + i)]

/-- Cell table with one free cell 0 and `SEASON_1_LIMIT` filled cells. -/
def cellsAtLimit : List Cell :=
  ⟨0, false⟩ :: (List.range SEASON_1_LIMIT).map (fun i => ⟨i + 1, true⟩)

/-- Ledger holding `SEASON_1_LIMIT` distinct committed claims. -/
def usersAtLimit : List ClaimRow :=
  (List.range SEASON_1_LIMIT).map (fun i => ⟨uname i, i + 1⟩)

/-- A database whose ledger already holds `SEASON_1_LIMIT` distinct committed
claims on cells `1 .. SEASON_1_LIMIT`, with one remaining free cell `0`. -/
def dbAtLimit : DBState :=
  { cells := cellsAtLimit, usernames := usersAtLimit }

/-- C3: Refutation on the code. When the claim insertion of a candidate hits
a uniqueness conflict (here: worker 2's candidate "a" was inserted by worker 1
between worker 2's existence check and its insert), the `/admin/upload` path
does NOT release the reserved cell, marks it filled anyway (`ON CONFLICT DO
NOTHING` followed by an unconditional `UPDATE ... SET filled = TRUE`), and
counts the candidate as added, not skipped: after the interleaving below,
cell 2 is filled while no claim references it, and both workers report the
`added` outcome. -/
theorem c3_conflict_leaks_reserved_cell :
    interleave dbTwoFree ⟨"a", .start⟩ ⟨"a", .start⟩ [true, false, true, true, false, false] =
      (⟨[⟨1, true⟩, ⟨2, true⟩], [⟨"a", 1⟩]⟩, ⟨"a", .done .addedO⟩, ⟨"a", .done .addedO⟩) ∧
    refCount ⟨[⟨1, true⟩, ⟨2, true⟩], [⟨"a", 1⟩]⟩ 2 = 0 :=
  ⟨by decide, by decide⟩

/-- C6: Refutation on the code. Submitting the same identifier "a" in two
concurrent single-candidate batches under the schedule below (both workers
pass the existence check before either inserts) yields exactly one claim, but
the other submission is counted as added, not as a skip. -/
theorem c6_concurrent_duplicate_not_skipped :
    interleave dbTwoFree ⟨"a", .start⟩ ⟨"a", .start⟩ [true, false, true, false, true, false] =
      (⟨[⟨1, true⟩, ⟨2, false⟩], [⟨"a", 1⟩]⟩, ⟨"a", .done .addedO⟩, ⟨"a", .done .addedO⟩) :=
  by decide

/-- C5 counterexample: allocating a batch of K + 3 = 4 eligible identifiers
into a grid with exactly K = 1 free cell reports 1 allocated and 0 skipped on
both allocation paths — not the 3 skipped the claim requires: both loops
`break` at the first missing free cell without counting the remainder. -/
theorem c5_counterexample :
    adminUpload dbOneFree ["a", "b", "c", "d"] 0 0 = (⟨[⟨1, true⟩], [⟨"a", 1⟩]⟩, 1, 0) ∧
    processUsernamesUpload dbOneFree ["a", "b", "c", "d"] = (⟨[⟨1, true⟩], [⟨"a", 1⟩]⟩, 1, 0) :=
  ⟨by decide, by decide⟩

/-- C9 counterexample: in the batch ["a", "b", "a"] against a grid with one
free cell, the later occurrence of "a" is neither allocated nor counted as
skipped: the loop breaks at "b" (no free cell) and drops the rest of the
batch from both counters, so the result reports 1 added and 0 skipped. -/
theorem c9_counterexample :
    adminUpload dbOneFree ["a", "b", "a"] 0 0 = (⟨[⟨1, true⟩], [⟨"a", 1⟩]⟩, 1, 0) :=
  by decide

/-- C4 counterexample: a storage failure at the second candidate of the batch
["a", "b"] on the `/admin/upload-confirm` path rolls back the whole batch:
candidate "a", fully processed before the failure, is gone from the final
state, which equals the initial one.  The same failure on `/admin/upload`
keeps "a" committed, showing the two paths differ. -/
theorem c4_counterexample :
    uploadConfirmFault dbTwoFree ["a", "b"] 1 = (dbTwoFree, 0, 0, true) ∧
    adminUploadFault dbTwoFree ["a", "b"] 1 =
      (⟨[⟨1, true⟩, ⟨2, false⟩], [⟨"a", 1⟩]⟩, 1, 0, true) :=
  ⟨by decide, by decide⟩

/-- C10: a request guarded by `adminAuth` reaches its handler exactly when
the `x-admin-secret` header is present, non-empty and equal to the
`ADMIN_SECRET` environment variable; and when `ADMIN_SECRET` is unset every
request is answered 401 with the state untouched, before any storage
access. -/
theorem c10_admin_auth_gate :
    (∀ secret envSecret : Option String,
      adminAuth secret envSecret = true ↔
        ∃ s : String, secret = some s ∧ s ≠ "" ∧ envSecret = some s) ∧
    (∀ (secret : Option String) (db : DBState) (handler : DBState → DBState × Nat),
      adminRoute secret none db handler = (db, 401)) := by
  constructor
  · intro secret envSecret
    cases secret with
    | none => simp [adminAuth, jsFalsyStr]
    | some s =>
      cases envSecret with
      | none =>
        simp [adminAuth, jsFalsyStr]
      | some e =>
        simp only [adminAuth, jsFalsyStr, Bool.not_eq_true', Bool.or_eq_false_iff]
        constructor
        · rintro ⟨⟨h1, h2⟩, h3⟩
          have hse : s = e := by
            have h4 : (some s == some e) = true := by simpa [bne] using h3
            simpa using h4
          subst hse
          refine ⟨s, rfl, ?_, rfl⟩
          simpa using h2
        · rintro ⟨t, ht1, ht2, ht3⟩
          cases ht1
          cases ht3
          refine ⟨⟨rfl, ?_⟩, ?_⟩
          · simpa using ht2
          · simp [bne]
  · intro secret db handler
    cases secret with
    | none => simp [adminRoute, adminAuth, jsFalsyStr]
    | some s => simp [adminRoute, adminAuth, jsFalsyStr, bne]

/-- Folding the preview step over any rows preserves distinctness of the
accumulated identifier list. -/
theorem previewDedup_go_nodup (rows : List String) :
    ∀ acc : List String, acc.Nodup → (rows.foldl previewStep acc).Nodup := by
  induction rows with
  | nil => intro acc h; simpa using h
  | cons n rest ih =>
    intro acc h
    simp only [List.foldl_cons]
    apply ih
    unfold previewStep
    by_cases h1 : n = ""
    · simpa [h1] using h
    · by_cases h2 : acc.contains (normalizeName n)
      · have hmem : normalizeName n ∈ acc := by simpa using h2
        simpa [h1, hmem] using h
      · have hnm : normalizeName n ∉ acc := by simpa using h2
        simp [h1, hnm, List.nodup_append, h]

/-- Membership in the folded preview accumulator: an identifier is collected
exactly when it is already in the accumulator or is the normalization of some
non-empty raw row. -/
theorem previewDedup_go_mem (rows : List String) :
    ∀ (acc : List String) (u : String),
      u ∈ rows.foldl previewStep acc ↔
        u ∈ acc ∨ ∃ raw ∈ rows, raw ≠ "" ∧ normalizeName raw = u := by
  induction rows with
  | nil => intro acc u; simp
  | cons n rest ih =>
    intro acc u
    simp only [List.foldl_cons, ih, List.mem_cons]
    unfold previewStep
    by_cases h1 : n = ""
    · simp only [if_pos h1]
      constructor
      · rintro (h | h)
        · exact Or.inl h
        · exact Or.inr ⟨h.choose, Or.inr h.choose_spec.1, h.choose_spec.2⟩
      · rintro (h | ⟨raw, hraw, hne, hnorm⟩)
        · exact Or.inl h
        · rcases hraw with rfl | hraw
          · exact absurd h1 hne
          · exact Or.inr ⟨raw, hraw, hne, hnorm⟩
    · simp only [if_neg h1]
      by_cases h2 : acc.contains (normalizeName n)
      · have hmem : normalizeName n ∈ acc := by simpa using h2
        simp only [if_pos h2]
        constructor
        · rintro (h | ⟨raw, hraw, hne, hnorm⟩)
          · exact Or.inl h
          · exact Or.inr ⟨raw, Or.inr hraw, hne, hnorm⟩
        · rintro (h | ⟨raw, hraw, hne, hnorm⟩)
          · exact Or.inl h
          · rcases hraw with rfl | hraw
            · exact Or.inl (hnorm ▸ hmem)
            · exact Or.inr ⟨raw, hraw, hne, hnorm⟩
      · simp only [if_neg h2, List.mem_append, List.mem_singleton]
        constructor
        · rintro ((h | h) | ⟨raw, hraw, hne, hnorm⟩)
          · exact Or.inl h
          · exact Or.inr ⟨n, Or.inl rfl, h1, h.symm⟩
          · exact Or.inr ⟨raw, Or.inr hraw, hne, hnorm⟩
        · rintro (h | ⟨raw, hraw, hne, hnorm⟩)
          · exact Or.inl (Or.inl h)
          · rcases hraw with rfl | hraw
            · exact Or.inl (Or.inr hnorm.symm)
            · exact Or.inr ⟨raw, hraw, hne, hnorm⟩

/-- Membership in the `already exists` selection of the preview handler. -/
theorem previewExisting_mem (db : DBState) (list : List String) (u : String) :
    u ∈ previewExisting db list ↔ u ∈ list ∧ ∃ r ∈ db.usernames, r.username = u := by
  unfold previewExisting
  simp only [List.mem_map, List.mem_filter]
  constructor
  · rintro ⟨r, ⟨hr, hc⟩, rfl⟩
    exact ⟨by simpa using hc, r, hr, rfl⟩
  · rintro ⟨hu, r, hr, rfl⟩
    exact ⟨r, ⟨hr, by simpa using hu⟩, rfl⟩

/-- C7: the preview operation leaves the database untouched (it only issues
reads); it normalizes and deduplicates the batch, and partitions it against
the claim ledger: a collected identifier lands in the existing selection
exactly when some claim carries it, and in the ready-to-insert list exactly
when no claim carries it. -/
theorem c7_preview_readonly_partition :
    (∀ (db : DBState) (rows : List String), (previewHandler db rows).1 = db) ∧
    (∀ rows : List String, (previewDedup rows).Nodup) ∧
    (∀ (rows : List String) (u : String),
      u ∈ previewDedup rows ↔ ∃ raw ∈ rows, raw ≠ "" ∧ normalizeName raw = u) ∧
    (∀ (db : DBState) (rows : List String) (u : String),
      u ∈ previewExisting db (previewDedup rows) ↔
        u ∈ previewDedup rows ∧ ∃ r ∈ db.usernames, r.username = u) ∧
    (∀ (db : DBState) (rows : List String) (u : String),
      u ∈ previewNew (previewDedup rows) (previewExisting db (previewDedup rows)) ↔
        u ∈ previewDedup rows ∧ ¬∃ r ∈ db.usernames, r.username = u) := by
  refine ⟨fun db rows => rfl, fun rows => previewDedup_go_nodup rows [] (by simp),
    fun rows u => ?_, fun db rows u => previewExisting_mem db (previewDedup rows) u,
    fun db rows u => ?_⟩
  · simpa using previewDedup_go_mem rows [] u
  · unfold previewNew
    simp only [List.mem_filter, Bool.not_eq_true']
    constructor
    · rintro ⟨hu, hnc⟩
      refine ⟨hu, fun hex => ?_⟩
      have : u ∈ previewExisting db (previewDedup rows) :=
        (previewExisting_mem db (previewDedup rows) u).2 ⟨hu, hex⟩
      simp [this] at hnc
    · rintro ⟨hu, hnex⟩
      refine ⟨hu, ?_⟩
      have : u ∉ previewExisting db (previewDedup rows) := by
        intro hmem
        exact hnex ((previewExisting_mem db (previewDedup rows) u).1 hmem).2
      simpa using this

/-- Value of the grid after the inner pixel loop, at any coordinate: a cell
is masked afterwards when it was masked before or some processed pixel of the
row is below the threshold and maps onto it. -/
theorem foldl_maskPixelStep_apply (img : Nat → Nat → Nat) (y : Nat) :
    ∀ (xs : List Nat) (g : MaskGrid) (q : Nat × Nat),
      (xs.foldl (maskPixelStep img y) g) q =
        (g q ||
          xs.any (fun x =>
            decide (img x y < THRESHOLD) && decide (q = (x + 1, GRID_SIZE - y)))) := by
  intro xs
  induction xs with
  | nil => intro g q; simp
  | cons x rest ih =>
    intro g q
    simp only [List.foldl_cons, ih, List.any_cons]
    have hstep : (maskPixelStep img y g x) q =
        (g q || (decide (img x y < THRESHOLD) && decide (q = (x + 1, GRID_SIZE - y)))) := by
      unfold maskPixelStep setMask
      by_cases h1 : img x y < THRESHOLD
      · by_cases h2 : q = (x + 1, GRID_SIZE - y) <;> simp [h1, h2]
      · simp [h1]
    rw [hstep, Bool.or_assoc]

/-- Value of the grid after folding row loops over any list of rows. -/
theorem foldl_maskRow_apply (img : Nat → Nat → Nat) :
    ∀ (ys : List Nat) (g : MaskGrid) (q : Nat × Nat),
      (ys.foldl (maskRow img) g) q =
        (g q ||
          ys.any (fun y =>
            (List.range GRID_SIZE).any (fun x =>
              decide (img x y < THRESHOLD) && decide (q = (x + 1, GRID_SIZE - y))))) := by
  intro ys
  induction ys with
  | nil => intro g q; simp
  | cons y rest ih =>
    intro g q
    simp only [List.foldl_cons, List.any_cons, ih]
    have hrow : (maskRow img g y) q =
        (g q ||
          (List.range GRID_SIZE).any (fun x =>
            decide (img x y < THRESHOLD) && decide (q = (x + 1, GRID_SIZE - y)))) :=
      foldl_maskPixelStep_apply img y (List.range GRID_SIZE) g q
    rw [hrow, Bool.or_assoc]

/-- Value of the grid after the full double loop of `applyMask`: a cell is
masked exactly when it was masked before or some pixel below the threshold
maps onto it. -/
theorem applyMask_apply (img : Nat → Nat → Nat) (g : MaskGrid) (q : Nat × Nat) :
    applyMask img g q =
      (g q ||
        (List.range GRID_SIZE).any (fun y =>
          (List.range GRID_SIZE).any (fun x =>
            decide (img x y < THRESHOLD) && decide (q = (x + 1, GRID_SIZE - y))))) :=
  foldl_maskRow_apply img (List.range GRID_SIZE) g q

/-- C8: starting from an unmasked grid, `applyMask` masks the cell
`(x + 1, GRID_SIZE - y)` exactly when pixel `(x, y)` is darker than the
threshold; consequently the all-black bitmap masks every cell of the
`GRID_SIZE x GRID_SIZE` grid (the map `(x, y) to (x + 1, GRID_SIZE - y)`
covers all of it as `x`, `y` range over the image) and the all-white bitmap
masks nothing. -/
theorem c8_mask_projection :
    (∀ (img : Nat → Nat → Nat) (x y : Fin GRID_SIZE),
      applyMask img initialUnmasked (x.val + 1, GRID_SIZE - y.val) =
        decide (img x.val y.val < THRESHOLD)) ∧
    (∀ x y : Fin GRID_SIZE,
      applyMask allBlack initialUnmasked (x.val + 1, GRID_SIZE - y.val) = true) ∧
    (∀ q : Nat × Nat, applyMask allWhite initialUnmasked q = false) := by
  have hmain : ∀ (img : Nat → Nat → Nat) (x y : Fin GRID_SIZE),
      applyMask img initialUnmasked (x.val + 1, GRID_SIZE - y.val) =
        decide (img x.val y.val < THRESHOLD) := by
    intro img x y
    rw [applyMask_apply, Bool.eq_iff_iff]
    simp only [initialUnmasked, Bool.false_or, List.any_eq_true, List.mem_range,
      Bool.and_eq_true, decide_eq_true_eq]
    constructor
    · rintro ⟨y', hy', x', hx', himg, hq⟩
      have h1 := congrArg Prod.fst hq
      have h2 := congrArg Prod.snd hq
      simp only at h1 h2
      have hx2 : x' = x.val := by omega
      have hy2 : y' = y.val := by
        have hylt : y.val < GRID_SIZE := y.isLt
        omega
      exact hx2 ▸ hy2 ▸ himg
    · intro h
      exact ⟨y.val, y.isLt, x.val, x.isLt, h, rfl⟩
  refine ⟨hmain, fun x y => ?_, fun q => ?_⟩
  · rw [hmain allBlack x y]
    simp [allBlack, THRESHOLD]
  · rw [applyMask_apply]
    simp [initialUnmasked, allWhite, THRESHOLD]

/-- Marking a cell filled does not touch the claim ledger. -/
theorem usernames_markFilled (db : DBState) (cid : Nat) :
    (markFilled db cid).usernames = db.usernames := rfl

/-- Inserting a claim does not touch the cell table. -/
theorem cells_insertClaim (db : DBState) (u : String) (cid : Nat) :
    (insertClaim db u cid).cells = db.cells := rfl

/-- Inserting a claim increments the committed claim count. -/
theorem claimCount_insertClaim (db : DBState) (u : String) (cid : Nat) :
    claimCount (insertClaim db u cid) = claimCount db + 1 := by
  simp [claimCount, insertClaim]

/-- Marking a cell filled keeps the committed claim count. -/
theorem claimCount_markFilled (db : DBState) (cid : Nat) :
    claimCount (markFilled db cid) = claimCount db := rfl

/-- Marking a cell filled keeps every reference count. -/
theorem refCount_markFilled (db : DBState) (cid x : Nat) :
    refCount (markFilled db cid) x = refCount db x := rfl

/-- Inserting a claim bumps exactly the reference count of its cell. -/
theorem refCount_insertClaim (db : DBState) (u : String) (cid x : Nat) :
    refCount (insertClaim db u cid) x = refCount db x + (if cid = x then 1 else 0) := by
  unfold refCount insertClaim
  simp only [List.filter_append, List.length_append]
  congr 1
  by_cases h : cid = x
  · simp [List.filter_cons, h]
  · simp [List.filter_cons, h]

/-- A successful free-cell selection returns the id of a free cell row. -/
theorem selectFreeCell_spec (db : DBState) (cid : Nat) (h : selectFreeCell db = some cid) :
    ∃ c ∈ db.cells, c.cell_id = cid ∧ c.filled = false := by
  unfold selectFreeCell at h
  cases hf : db.cells.find? (fun c => c.filled == false) with
  | none => rw [hf] at h; simp at h
  | some c =>
    rw [hf] at h
    have hcid : c.cell_id = cid := by simpa using h
    refine ⟨c, List.mem_of_find?_eq_some hf, hcid, ?_⟩
    have := List.find?_some hf
    simpa using this

/-- When no free cell row exists the selection returns `none`. -/
theorem selectFreeCell_eq_none_of_freeCount (db : DBState) (h : freeCount db = 0) :
    selectFreeCell db = none := by
  have hfind : db.cells.find? (fun c => c.filled == false) = none := by
    rw [List.find?_eq_none]
    unfold freeCount at h
    rw [List.length_eq_zero] at h
    intro c hc hcf
    have hmem : c ∈ List.filter (fun c => c.filled == false) db.cells :=
      List.mem_filter.mpr ⟨hc, hcf⟩
    rw [h] at hmem
    exact absurd hmem (List.not_mem_nil c)
  unfold selectFreeCell
  rw [hfind]
  rfl

/-- When a free cell row exists the selection succeeds. -/
theorem selectFreeCell_isSome_of_freeCount (db : DBState) (h : 0 < freeCount db) :
    ∃ cid, selectFreeCell db = some cid := by
  unfold freeCount at h
  rw [List.length_pos] at h
  obtain ⟨c, hc⟩ := List.exists_mem_of_ne_nil _ h
  have hc2 := List.mem_filter.mp hc
  have hsome : (db.cells.find? (fun c => c.filled == false)).isSome := by
    rw [List.find?_isSome]
    exact ⟨c, hc2.1, hc2.2⟩
  obtain ⟨c', hc'⟩ := Option.isSome_iff_exists.mp hsome
  refine ⟨c'.cell_id, ?_⟩
  unfold selectFreeCell
  rw [hc']
  rfl

/-- Marking a cell filled does not change the list of cell ids. -/
theorem cellIds_markFilled (db : DBState) (cid : Nat) :
    (markFilled db cid).cells.map (fun c => c.cell_id) = db.cells.map (fun c => c.cell_id) := by
  unfold markFilled
  simp only [List.map_map]
  congr 1
  funext c
  by_cases h : c.cell_id = cid <;> simp [Function.comp, h]

/-- Marking a cell filled preserves the primary-key property. -/
theorem wfCells_markFilled (db : DBState) (cid : Nat) (h : wfCells db) :
    wfCells (markFilled db cid) := by
  unfold wfCells
  rw [cellIds_markFilled]
  exact h

/-- Inserting a claim preserves the primary-key property. -/
theorem wfCells_insertClaim (db : DBState) (u : String) (cid : Nat) (h : wfCells db) :
    wfCells (insertClaim db u cid) := h

/-- Existence checks after an insert: the new row answers for its username. -/
theorem existsUsername_insertClaim (db : DBState) (v u : String) (cid : Nat) :
    existsUsername (insertClaim db v cid) u = (existsUsername db u || v == u) := by
  simp [existsUsername, insertClaim, List.any_append]

/-- Existence checks ignore cell updates. -/
theorem existsUsername_markFilled (db : DBState) (cid : Nat) (u : String) :
    existsUsername (markFilled db cid) u = existsUsername db u := rfl

/-- Failing existence check means no ledger row carries the username. -/
theorem existsUsername_eq_false_iff (db : DBState) (u : String) :
    existsUsername db u = false ↔ ∀ r ∈ db.usernames, r.username ≠ u := by
  simp [existsUsername, List.any_eq_false]

/-- A free cell is referenced by no claim, given the bijection invariant. -/
theorem refCount_eq_zero_of_free (db : DBState) (hb : cellClaimBijection db)
    (c0 : Cell) (hc0 : c0 ∈ db.cells) (hfree : c0.filled = false) :
    refCount db c0.cell_id = 0 := by
  by_contra hne
  have hpos : 0 < refCount db c0.cell_id := Nat.pos_of_ne_zero hne
  unfold refCount at hpos
  rw [List.length_pos] at hpos
  obtain ⟨r, hr⟩ := List.exists_mem_of_ne_nil _ hpos
  have hr2 := List.mem_filter.mp hr
  have hrid : r.cell_id = c0.cell_id := by simpa using hr2.2
  have hone : refCount db r.cell_id = 1 := (hb.2 r hr2.1).2
  rw [hrid] at hone
  have := (hb.1 c0 hc0).2 hone
  rw [hfree] at this
  exact Bool.false_ne_true this

/-- The committed-allocation step `insert claim; mark cell filled` preserves
the cell/claim bijection when the cell was selected free. -/
theorem alloc_preserves_bijection (db : DBState) (u : String) (cid : Nat)
    (hb : cellClaimBijection db)
    (hsel : selectFreeCell db = some cid) :
    cellClaimBijection (markFilled (insertClaim db u cid) cid) := by
  obtain ⟨c0, hc0, hid, hfree⟩ := selectFreeCell_spec db cid hsel
  have hzero : refCount db cid = 0 := hid ▸ refCount_eq_zero_of_free db hb c0 hc0 hfree
  have href : ∀ x, refCount (markFilled (insertClaim db u cid) cid) x =
      refCount db x + (if cid = x then 1 else 0) := by
    intro x
    rw [refCount_markFilled, refCount_insertClaim]
  have hnotref : ∀ r ∈ db.usernames, r.cell_id ≠ cid := by
    intro r hr hrc
    have : r ∈ db.usernames.filter (fun r => r.cell_id == cid) :=
      List.mem_filter.mpr ⟨hr, by simp [hrc]⟩
    have hlen : 0 < refCount db cid := by
      unfold refCount
      rw [List.length_pos]
      intro hnil
      rw [hnil] at this
      exact absurd this (List.not_mem_nil r)
    omega
  have hidpres : ∀ c : Cell,
      (if c.cell_id == cid then { c with filled := true } else c).cell_id = c.cell_id := by
    intro c
    by_cases h : c.cell_id = cid
    · rw [if_pos (by simp [h])]
    · rw [if_neg (by simp [h])]
  have hcells : (markFilled (insertClaim db u cid) cid).cells =
      db.cells.map (fun c => if c.cell_id == cid then { c with filled := true } else c) := rfl
  have husers : (markFilled (insertClaim db u cid) cid).usernames =
      db.usernames ++ [⟨u, cid⟩] := rfl
  constructor
  · intro c' hc'
    rw [hcells] at hc'
    obtain ⟨c, hc, rfl⟩ := List.mem_map.mp hc'
    by_cases hcc : c.cell_id = cid
    · rw [if_pos (by simp [hcc])]
      constructor
      · intro _
        rw [href]
        show refCount db c.cell_id + (if cid = c.cell_id then 1 else 0) = 1
        rw [hcc, hzero, if_pos rfl]
      · intro _
        rfl
    · rw [if_neg (by simp [hcc])]
      rw [href]
      rw [if_neg (fun h => hcc h.symm), Nat.add_zero]
      exact hb.1 c hc
  · intro r hr
    rw [husers] at hr
    rw [List.mem_append] at hr
    rcases hr with hr | hr
    · obtain ⟨⟨c, hc, hcr⟩, hone⟩ := hb.2 r hr
      constructor
      · refine ⟨if c.cell_id == cid then { c with filled := true } else c, ?_, ?_⟩
        · rw [hcells]
          exact List.mem_map.mpr ⟨c, hc, rfl⟩
        · rw [hidpres c]
          exact hcr
      · rw [href]
        rw [if_neg (fun h => hnotref r hr h.symm), Nat.add_zero]
        exact hone
    · have hreq : r = ⟨u, cid⟩ := by simpa using hr
      subst hreq
      constructor
      · refine ⟨if c0.cell_id == cid then { c0 with filled := true } else c0, ?_, ?_⟩
        · rw [hcells]
          exact List.mem_map.mpr ⟨c0, hc0, rfl⟩
        · rw [hidpres c0]
          exact hid
      · rw [href]
        show refCount db cid + (if cid = cid then 1 else 0) = 1
        rw [hzero, if_pos rfl]

/-- The upload loop on an empty batch returns the state and counters. -/
theorem adminUpload_nil (db : DBState) (a s : Nat) : adminUpload db [] a s = (db, a, s) := rfl

/-- One-step unfolding of the upload loop. -/
theorem adminUpload_cons (db : DBState) (n : String) (rest : List String) (a s : Nat) :
    adminUpload db (n :: rest) a s =
      (if normalizeName n = "" then adminUpload db rest a (s + 1)
       else if existsUsername db (normalizeName n) then adminUpload db rest a (s + 1)
       else
         match selectFreeCell db with
         | none => (db, a, s)
         | some cid =>
           adminUpload (markFilled (insertClaimOnConflictDoNothing db (normalizeName n) cid) cid)
             rest (a + 1) s) := rfl

/-- One-step unfolding of the confirm loop. -/
theorem puLoop_cons (db : DBState) (n : String) (rest : List String) (cnt a s : Nat) :
    puLoop db (n :: rest) cnt a s =
      (if SEASON_1_LIMIT ≤ cnt then (db, a, s)
       else if normalizeName n = "" then puLoop db rest cnt a (s + 1)
       else if existsUsername db (normalizeName n) then puLoop db rest cnt a (s + 1)
       else
         match selectFreeCell db with
         | none => (db, a, s)
         | some cid =>
           puLoop (markFilled (insertClaim db (normalizeName n) cid) cid) rest (cnt + 1)
             (a + 1) s) := rfl

/-- The upload route preserves the primary-key property and the cell/claim
bijection, whatever the batch. -/
theorem adminUpload_preserves (names : List String) :
    ∀ (db : DBState) (a s : Nat), wfCells db → cellClaimBijection db →
      wfCells (adminUpload db names a s).1 ∧ cellClaimBijection (adminUpload db names a s).1 := by
  induction names with
  | nil => intro db a s hw hb; exact ⟨hw, hb⟩
  | cons n rest ih =>
    intro db a s hw hb
    rw [adminUpload_cons]
    by_cases h1 : normalizeName n = ""
    · rw [if_pos h1]
      exact ih db a (s + 1) hw hb
    · rw [if_neg h1]
      by_cases h2 : existsUsername db (normalizeName n)
      · rw [if_pos h2]
        exact ih db a (s + 1) hw hb
      · rw [if_neg h2]
        cases hsel : selectFreeCell db with
        | none => exact ⟨hw, hb⟩
        | some cid =>
          have hins : insertClaimOnConflictDoNothing db (normalizeName n) cid =
              insertClaim db (normalizeName n) cid := by
            unfold insertClaimOnConflictDoNothing
            rw [if_neg (by simp [h2])]
          dsimp only
          rw [hins]
          exact ih _ (a + 1) s
            (wfCells_markFilled _ cid (wfCells_insertClaim db _ cid hw))
            (alloc_preserves_bijection db _ cid hb hsel)

/-- The confirm loop preserves the primary-key property and the cell/claim
bijection, whatever the batch and counters. -/
theorem puLoop_preserves (names : List String) :
    ∀ (db : DBState) (cnt a s : Nat), wfCells db → cellClaimBijection db →
      wfCells (puLoop db names cnt a s).1 ∧ cellClaimBijection (puLoop db names cnt a s).1 := by
  induction names with
  | nil => intro db cnt a s hw hb; exact ⟨hw, hb⟩
  | cons n rest ih =>
    intro db cnt a s hw hb
    rw [puLoop_cons]
    by_cases h0 : SEASON_1_LIMIT ≤ cnt
    · rw [if_pos h0]
      exact ⟨hw, hb⟩
    · rw [if_neg h0]
      by_cases h1 : normalizeName n = ""
      · rw [if_pos h1]
        exact ih db cnt a (s + 1) hw hb
      · rw [if_neg h1]
        by_cases h2 : existsUsername db (normalizeName n)
        · rw [if_pos h2]
          exact ih db cnt a (s + 1) hw hb
        · rw [if_neg h2]
          cases hsel : selectFreeCell db with
          | none => exact ⟨hw, hb⟩
          | some cid =>
            exact ih _ (cnt + 1) (a + 1) s
              (wfCells_markFilled _ cid (wfCells_insertClaim db _ cid hw))
              (alloc_preserves_bijection db _ cid hb hsel)

/-- Any sequence of admin calls preserves the primary-key property and the
cell/claim bijection. -/
theorem runCalls_preserves (calls : List AdminCall) :
    ∀ db : DBState, wfCells db → cellClaimBijection db →
      wfCells (runCalls db calls) ∧ cellClaimBijection (runCalls db calls) := by
  induction calls with
  | nil => intro db hw hb; exact ⟨hw, hb⟩
  | cons call rest ih =>
    intro db hw hb
    have hstep : wfCells (runCall db call) ∧ cellClaimBijection (runCall db call) := by
      cases call with
      | upload names => exact adminUpload_preserves names db 0 0 hw hb
      | confirm names =>
        exact puLoop_preserves names db (claimCount db) 0 0 hw hb
    exact ih (runCall db call) hstep.1 hstep.2

/-- C2: after any sequence of upload and confirm calls starting from a
well-formed state satisfying the cell/claim bijection, the bijection still
holds: a cell is filled exactly when one claim references it, and every claim
references one cell referenced by no other claim. -/
theorem c2_bijection_invariant (db : DBState) (calls : List AdminCall)
    (hw : wfCells db) (hb : cellClaimBijection db) :
    cellClaimBijection (runCalls db calls) :=
  (runCalls_preserves calls db hw hb).2

/-- C2 witness: a concrete fresh two-cell grid and a concrete call sequence
mixing both routes, with every hypothesis discharged by evaluation. -/
theorem c2_bijection_invariant_witness :
    wfCells dbTwoFree ∧ cellClaimBijection dbTwoFree ∧
      cellClaimBijection
        (runCalls dbTwoFree [AdminCall.upload ["A ", "b"], AdminCall.confirm ["c", "b"]]) :=
  ⟨by decide, by decide,
    c2_bijection_invariant dbTwoFree [AdminCall.upload ["A ", "b"], AdminCall.confirm ["c", "b"]]
      (by decide) (by decide)⟩

/-- Round trip of `Char.ofNat` below the surrogate range. -/
theorem char_toNat_ofNat (n : Nat) (h : n < 55296) : (Char.ofNat n).toNat = n := by
  have hv : n.isValidChar := Or.inl h
  simp only [Char.ofNat, dif_pos hv]
  rfl

/-- The synthetic usernames are pairwise distinct below the limit. -/
theorem uname_injOn (i j : Nat) (hi : i < SEASON_1_LIMIT) (hj : j < SEASON_1_LIMIT)
    (h : uname i = uname j) : i = j := by
  unfold uname at h
  have hlist : [Char.ofNat (1000 + i)] = [Char.ofNat (1000 + j)] := by
    injection h
  have hchar : Char.ofNat (1000 + i) = Char.ofNat (1000 + j) := by
    injection hlist
  have hnat := congrArg Char.toNat hchar
  rw [char_toNat_ofNat (1000 + i) (by unfold SEASON_1_LIMIT at hi; omega),
    char_toNat_ofNat (1000 + j) (by unfold SEASON_1_LIMIT at hj; omega)] at hnat
  omega

/-- None of the synthetic usernames is the candidate "b". -/
theorem uname_ne_b (i : Nat) (hi : i < SEASON_1_LIMIT) : uname i ≠ "b" := by
  intro h
  unfold uname at h
  have hlist : [Char.ofNat (1000 + i)] = ['b'] := congrArg String.data h
  have hchar : Char.ofNat (1000 + i) = 'b' := by
    injection hlist
  have hnat := congrArg Char.toNat hchar
  rw [char_toNat_ofNat (1000 + i) (by unfold SEASON_1_LIMIT at hi; omega)] at hnat
  have hb : ('b' : Char).toNat = 98 := rfl
  omega

/-- Ledger projection of the state at the limit. -/
theorem dbAtLimit_usernames : dbAtLimit.usernames = usersAtLimit := by
  unfold dbAtLimit
  with_reducible rfl

/-- Cell-table projection of the state at the limit. -/
theorem dbAtLimit_cells : dbAtLimit.cells = cellsAtLimit := by
  unfold dbAtLimit
  with_reducible rfl

/-- Unfolding of the synthetic ledger. -/
theorem usersAtLimit_eq :
    usersAtLimit = (List.range SEASON_1_LIMIT).map (fun i => (⟨uname i, i + 1⟩ : ClaimRow)) := by
  unfold usersAtLimit
  with_reducible rfl

/-- The ledger at the limit holds pairwise distinct usernames. -/
theorem dbAtLimit_usernames_nodup :
    (dbAtLimit.usernames.map (fun r => r.username)).Nodup := by
  rw [dbAtLimit_usernames, usersAtLimit_eq, List.map_map]
  refine List.Nodup.map_on ?_ (List.nodup_range SEASON_1_LIMIT)
  intro i hi j hj hij
  exact uname_injOn i j (List.mem_range.mp hi) (List.mem_range.mp hj) hij

/-- The candidate "b" is not in the ledger at the limit. -/
theorem existsUsername_dbAtLimit_b : existsUsername dbAtLimit "b" = false := by
  unfold existsUsername
  rw [dbAtLimit_usernames, usersAtLimit_eq, List.any_eq_false]
  intro r hr
  obtain ⟨i, hi, rfl⟩ := List.mem_map.mp hr
  intro hbeq
  exact uname_ne_b i (List.mem_range.mp hi) (by simpa using hbeq)

/-- The state at the limit still has its free cell 0 up front. -/
theorem selectFreeCell_dbAtLimit : selectFreeCell dbAtLimit = some 0 := by
  unfold selectFreeCell
  rw [dbAtLimit_cells]
  unfold cellsAtLimit
  rw [List.find?_cons_of_pos _ (by decide)]
  rfl

/-- Claim count of the state at the limit. -/
theorem claimCount_dbAtLimit : claimCount dbAtLimit = SEASON_1_LIMIT := by
  unfold claimCount
  rw [dbAtLimit_usernames, usersAtLimit_eq, List.length_map, List.length_range]

/-- C1: the capacity limit is NOT enforced on the inline `/admin/upload`
path.  From a valid state whose ledger already holds `SEASON_1_LIMIT`
distinct committed claims and whose grid still has a free cell, uploading the
batch ["b"] commits a claim and brings the committed count to
`SEASON_1_LIMIT + 1`: the handler contains no check of the claim count
against the limit. -/
theorem c1_limit_not_enforced_on_upload :
    claimCount dbAtLimit = SEASON_1_LIMIT ∧
    (dbAtLimit.usernames.map (fun r => r.username)).Nodup ∧
    claimCount (adminUpload dbAtLimit ["b"] 0 0).1 = SEASON_1_LIMIT + 1 := by
  refine ⟨claimCount_dbAtLimit, dbAtLimit_usernames_nodup, ?_⟩
  rw [adminUpload_cons]
  have hnb : normalizeName "b" = "b" := by decide
  rw [hnb]
  rw [if_neg (by decide)]
  rw [if_neg (by simp [existsUsername_dbAtLimit_b])]
  rw [selectFreeCell_dbAtLimit]
  dsimp only
  have hins : insertClaimOnConflictDoNothing dbAtLimit "b" 0 = insertClaim dbAtLimit "b" 0 := by
    unfold insertClaimOnConflictDoNothing
    rw [if_neg (by simp [existsUsername_dbAtLimit_b])]
  rw [hins]
  rw [adminUpload_nil]
  dsimp only
  rw [claimCount_markFilled, claimCount_insertClaim, claimCount_dbAtLimit]

/-- Unfolding of the fault-injected upload loop on an empty batch. -/
theorem adminUploadFaultGo_nil (db : DBState) (i fault a s : Nat) :
    adminUploadFaultGo db [] i fault a s = (db, a, s, false) := rfl

/-- One-step unfolding of the fault-injected upload loop. -/
theorem adminUploadFaultGo_cons (db : DBState) (n : String) (rest : List String)
    (i fault a s : Nat) :
    adminUploadFaultGo db (n :: rest) i fault a s =
      (if normalizeName n = "" then adminUploadFaultGo db rest (i + 1) fault a (s + 1)
       else if existsUsername db (normalizeName n) then
         adminUploadFaultGo db rest (i + 1) fault a (s + 1)
       else
         match selectFreeCell db with
         | none => (db, a, s, false)
         | some cid =>
           if i = fault then (db, a, s, true)
           else
             adminUploadFaultGo
               (markFilled (insertClaimOnConflictDoNothing db (normalizeName n) cid) cid) rest
               (i + 1) fault (a + 1) s) := rfl

/-- Once the loop index has passed the fault position, the injected failure
can no longer fire. -/
theorem adminUploadFaultGo_no_fail (names : List String) :
    ∀ (db : DBState) (i fault a s : Nat), fault < i →
      (adminUploadFaultGo db names i fault a s).2.2.2 = false := by
  induction names with
  | nil => intro db i fault a s _; rfl
  | cons n rest ih =>
    intro db i fault a s hlt
    rw [adminUploadFaultGo_cons]
    by_cases h1 : normalizeName n = ""
    · rw [if_pos h1]
      exact ih db (i + 1) fault a (s + 1) (by omega)
    · rw [if_neg h1]
      by_cases h2 : existsUsername db (normalizeName n)
      · rw [if_pos h2]
        exact ih db (i + 1) fault a (s + 1) (by omega)
      · rw [if_neg h2]
        cases hsel : selectFreeCell db with
        | none => rfl
        | some cid =>
          dsimp only
          rw [if_neg (by omega)]
          exact ih _ (i + 1) fault (a + 1) s (by omega)

/-- When the injected failure fires, the fault-injected upload run has
exactly the state and counters of the plain upload run over the candidates
before the fault position: earlier per-candidate transactions stay
committed and only the failing candidate's transaction is rolled back. -/
theorem adminUploadFaultGo_take (names : List String) :
    ∀ (db : DBState) (i fault a s : Nat), i ≤ fault →
      (adminUploadFaultGo db names i fault a s).2.2.2 = true →
      (adminUploadFaultGo db names i fault a s).1 =
          (adminUpload db (names.take (fault - i)) a s).1 ∧
        (adminUploadFaultGo db names i fault a s).2.1 =
          (adminUpload db (names.take (fault - i)) a s).2.1 ∧
        (adminUploadFaultGo db names i fault a s).2.2.1 =
          (adminUpload db (names.take (fault - i)) a s).2.2 := by
  induction names with
  | nil =>
    intro db i fault a s _ hfail
    rw [adminUploadFaultGo_nil] at hfail
    exact absurd hfail (by simp)
  | cons n rest ih =>
    intro db i fault a s hle hfail
    rw [adminUploadFaultGo_cons] at hfail ⊢
    by_cases heq : i = fault
    · subst heq
      rw [Nat.sub_self, List.take_zero, adminUpload_nil]
      by_cases h1 : normalizeName n = ""
      · rw [if_pos h1] at hfail
        rw [adminUploadFaultGo_no_fail rest db (i + 1) i a (s + 1) (by omega)] at hfail
        exact absurd hfail (by simp)
      · rw [if_neg h1] at hfail ⊢
        by_cases h2 : existsUsername db (normalizeName n)
        · rw [if_pos h2] at hfail
          rw [adminUploadFaultGo_no_fail rest db (i + 1) i a (s + 1) (by omega)] at hfail
          exact absurd hfail (by simp)
        · rw [if_neg h2] at hfail ⊢
          cases hsel : selectFreeCell db with
          | none =>
            rw [hsel] at hfail
            exact absurd hfail (by simp)
          | some cid =>
            rw [hsel] at hfail
            dsimp only at hfail ⊢
            rw [if_pos rfl]
            exact ⟨rfl, rfl, rfl⟩
    · have hlt : i < fault := by omega
      have hstep : fault - i = (fault - (i + 1)) + 1 := by omega
      rw [hstep, List.take_succ_cons, adminUpload_cons]
      by_cases h1 : normalizeName n = ""
      · simp only [if_pos h1] at hfail ⊢
        exact ih db (i + 1) fault a (s + 1) (by omega) hfail
      · simp only [if_neg h1] at hfail ⊢
        by_cases h2 : existsUsername db (normalizeName n)
        · simp only [if_pos h2] at hfail ⊢
          exact ih db (i + 1) fault a (s + 1) (by omega) hfail
        · simp only [if_neg h2] at hfail ⊢
          cases hsel : selectFreeCell db with
          | none =>
            rw [hsel] at hfail
            exact absurd hfail (by simp)
          | some cid =>
            rw [hsel] at hfail
            dsimp only at hfail ⊢
            rw [if_neg heq] at hfail ⊢
            exact ih _ (i + 1) fault (a + 1) s (by omega) hfail

/-- C4 amended: per-candidate fault isolation holds on `/admin/upload` (a
storage failure at one candidate's transaction preserves the state and
counters produced by the candidates before it), while on
`/admin/upload-confirm` the single outer transaction makes any storage
failure roll back the whole batch: the final state is the initial one. -/
theorem c4_amended (db : DBState) (names : List String) (fault : Nat)
    (h : (adminUploadFault db names fault).2.2.2 = true)
    (db2 : DBState) (names2 : List String) (fault2 : Nat)
    (h2 : (uploadConfirmFault db2 names2 fault2).2.2.2 = true) :
    ((adminUploadFault db names fault).1 = (adminUpload db (names.take fault) 0 0).1 ∧
      (adminUploadFault db names fault).2.1 = (adminUpload db (names.take fault) 0 0).2.1 ∧
      (adminUploadFault db names fault).2.2.1 = (adminUpload db (names.take fault) 0 0).2.2) ∧
    (uploadConfirmFault db2 names2 fault2).1 = db2 := by
  constructor
  · have hmain := adminUploadFaultGo_take names db 0 fault 0 0 (Nat.zero_le fault) h
    rw [Nat.sub_zero] at hmain
    exact hmain
  · unfold uploadConfirmFault at h2 ⊢
    by_cases hr : (puLoopFault db2 names2 0 fault2 (claimCount db2) 0 0).2.2.2 = true
    · rw [if_pos hr]
    · rw [if_neg hr] at h2
      exact absurd h2 hr

/-- C4 amended witness: the concrete two-candidate batch with a failure at
the second candidate, on both routes. -/
theorem c4_amended_witness :
    (adminUploadFault dbTwoFree ["a", "b"] 1).2.2.2 = true ∧
    (uploadConfirmFault dbTwoFree ["a", "b"] 1).2.2.2 = true ∧
    ((adminUploadFault dbTwoFree ["a", "b"] 1).1 =
        (adminUpload dbTwoFree (["a", "b"].take 1) 0 0).1 ∧
      (adminUploadFault dbTwoFree ["a", "b"] 1).2.1 =
        (adminUpload dbTwoFree (["a", "b"].take 1) 0 0).2.1 ∧
      (adminUploadFault dbTwoFree ["a", "b"] 1).2.2.1 =
        (adminUpload dbTwoFree (["a", "b"].take 1) 0 0).2.2) ∧
    (uploadConfirmFault dbTwoFree ["a", "b"] 1).1 = dbTwoFree :=
  ⟨by decide, by decide,
    (c4_amended dbTwoFree ["a", "b"] 1 (by decide) dbTwoFree ["a", "b"] 1 (by decide)).1,
    (c4_amended dbTwoFree ["a", "b"] 1 (by decide) dbTwoFree ["a", "b"] 1 (by decide)).2⟩

/-- Inserting a claim keeps the number of free cells. -/
theorem freeCount_insertClaim (db : DBState) (u : String) (cid : Nat) :
    freeCount (insertClaim db u cid) = freeCount db := rfl

/-- Filling the unique free cell with a given id removes exactly one cell
from the free count. -/
theorem countP_free_map_fill (cid : Nat) :
    ∀ l : List Cell, (l.map (fun c => c.cell_id)).Nodup →
      ∀ c0 ∈ l, c0.cell_id = cid → c0.filled = false →
      (l.map (fun c => if c.cell_id == cid then { c with filled := true } else c)).countP
          (fun c => c.filled == false) + 1 =
        l.countP (fun c => c.filled == false) := by
  intro l
  induction l with
  | nil => intro _ c0 hc0; exact absurd hc0 (List.not_mem_nil c0)
  | cons c rest ih =>
    intro hnd c0 hc0 hid hfree
    rw [List.map_cons, List.nodup_cons] at hnd
    rw [List.map_cons, List.countP_cons, List.countP_cons]
    rcases List.mem_cons.mp hc0 with rfl | hmem
    · have hrest : ∀ x ∈ rest, x.cell_id ≠ cid := by
        intro x hx hxid
        apply hnd.1
        rw [hid, ← hxid]
        exact List.mem_map.mpr ⟨x, hx, rfl⟩
      have hmapid : rest.map (fun c => if c.cell_id == cid then { c with filled := true } else c) =
          rest := by
        have hcong : ∀ x ∈ rest,
            (if x.cell_id == cid then { x with filled := true } else x) = id x := by
          intro x hx
          rw [if_neg (by simp [hrest x hx])]
          rfl
        rw [List.map_congr_left hcong, List.map_id]
      rw [hmapid]
      have hhead : (if c0.cell_id == cid then ({ c0 with filled := true } : Cell) else c0) =
          { c0 with filled := true } := if_pos (by simp [hid])
      rw [hhead]
      simp [hfree]
    · have hcne : c.cell_id ≠ cid := by
        intro hcc
        apply hnd.1
        rw [hcc, ← hid]
        exact List.mem_map.mpr ⟨c0, hmem, rfl⟩
      have hhead : (if c.cell_id == cid then ({ c with filled := true } : Cell) else c) = c :=
        if_neg (by simp [hcne])
      rw [hhead]
      have hih := ih hnd.2 c0 hmem hid hfree
      omega

/-- Filling the selected free cell decrements the free count by one. -/
theorem freeCount_markFilled_of_selected (db : DBState) (cid : Nat) (hw : wfCells db)
    (hsel : selectFreeCell db = some cid) :
    freeCount (markFilled db cid) + 1 = freeCount db := by
  obtain ⟨c0, hc0, hid, hfree⟩ := selectFreeCell_spec db cid hsel
  unfold freeCount markFilled
  rw [← List.countP_eq_length_filter, ← List.countP_eq_length_filter]
  exact countP_free_map_fill cid db.cells hw c0 hc0 hid hfree

/-- With exactly K free cells and a batch of more than K eligible, pairwise
distinct candidates, the upload loop allocates precisely the first K in
input order: the final ledger appends their normalizations, the added
counter grows by K, and the skipped counter does not move. -/
theorem adminUpload_firstK (K : Nat) :
    ∀ (names : List String) (db : DBState) (a s : Nat),
      wfCells db →
      (∀ n ∈ names, normalizeName n ≠ "" ∧ existsUsername db (normalizeName n) = false) →
      (names.map normalizeName).Nodup →
      freeCount db = K → K < names.length →
      (adminUpload db names a s).1.usernames.map (fun r => r.username) =
          db.usernames.map (fun r => r.username) ++ (names.take K).map normalizeName ∧
        (adminUpload db names a s).2.1 = a + K ∧
        (adminUpload db names a s).2.2 = s := by
  induction K with
  | zero =>
    intro names db a s hw helig hnd hfree hlen
    cases names with
    | nil => simp at hlen
    | cons n rest =>
      obtain ⟨h1, h2⟩ := helig n (List.mem_cons_self n rest)
      rw [adminUpload_cons, if_neg h1, if_neg (by simp [h2]),
        selectFreeCell_eq_none_of_freeCount db hfree]
      simp
  | succ K ih =>
    intro names db a s hw helig hnd hfree hlen
    cases names with
    | nil => simp at hlen
    | cons n rest =>
      obtain ⟨h1, h2⟩ := helig n (List.mem_cons_self n rest)
      obtain ⟨cid, hsel⟩ := selectFreeCell_isSome_of_freeCount db (by omega)
      rw [adminUpload_cons, if_neg h1, if_neg (by simp [h2]), hsel]
      dsimp only
      have hins : insertClaimOnConflictDoNothing db (normalizeName n) cid =
          insertClaim db (normalizeName n) cid := by
        unfold insertClaimOnConflictDoNothing
        rw [if_neg (by simp [h2])]
      rw [hins]
      rw [List.map_cons, List.nodup_cons] at hnd
      have hw' : wfCells (markFilled (insertClaim db (normalizeName n) cid) cid) :=
        wfCells_markFilled _ cid (wfCells_insertClaim db _ cid hw)
      have hsel' : selectFreeCell (insertClaim db (normalizeName n) cid) = some cid := hsel
      have hfree' : freeCount (markFilled (insertClaim db (normalizeName n) cid) cid) = K := by
        have := freeCount_markFilled_of_selected (insertClaim db (normalizeName n) cid) cid
          (wfCells_insertClaim db _ cid hw) hsel'
        rw [freeCount_insertClaim] at this
        omega
      have helig' : ∀ m ∈ rest,
          normalizeName m ≠ "" ∧
            existsUsername (markFilled (insertClaim db (normalizeName n) cid) cid)
              (normalizeName m) = false := by
        intro m hm
        refine ⟨(helig m (List.mem_cons_of_mem n hm)).1, ?_⟩
        rw [existsUsername_markFilled, existsUsername_insertClaim]
        rw [(helig m (List.mem_cons_of_mem n hm)).2]
        have hne : normalizeName n ≠ normalizeName m := by
          intro hc
          exact hnd.1 (hc ▸ List.mem_map.mpr ⟨m, hm, rfl⟩)
        simp [hne]
      obtain ⟨hmap, hadd, hskip⟩ := ih rest (markFilled (insertClaim db (normalizeName n) cid) cid)
        (a + 1) s hw' helig' hnd.2 hfree' (by simp at hlen; omega)
      refine ⟨?_, by rw [hadd]; omega, hskip⟩
      rw [hmap]
      have husers : (markFilled (insertClaim db (normalizeName n) cid) cid).usernames =
          db.usernames ++ [⟨normalizeName n, cid⟩] := rfl
      rw [husers, List.take_succ_cons, List.map_cons, List.map_append]
      simp

/-- When the ledger already counts at least the season limit, the confirm
path stops immediately: no state change, zero added, zero skipped. -/
theorem processUsernamesUpload_at_limit (db : DBState) (names : List String)
    (hcap : SEASON_1_LIMIT ≤ claimCount db) :
    processUsernamesUpload db names = (db, 0, 0) := by
  unfold processUsernamesUpload
  cases names with
  | nil => rfl
  | cons n rest => rw [puLoop_cons, if_pos hcap]

/-- C5 amended: allocating a batch of K + 3 eligible, pairwise distinct
identifiers into a grid with exactly K free cells allocates exactly the
first K in input order, but the 3 remaining candidates are NOT reflected in
the skipped count (it stays at zero): the loop drops them by breaking.
Likewise the confirm path, once the capacity limit is reached, stops without
counting any remaining candidate as skipped. -/
theorem c5_amended (db : DBState) (names : List String) (K : Nat)
    (hw : wfCells db)
    (helig : ∀ n ∈ names, normalizeName n ≠ "" ∧ existsUsername db (normalizeName n) = false)
    (hnd : (names.map normalizeName).Nodup)
    (hfree : freeCount db = K)
    (hlen : names.length = K + 3)
    (db2 : DBState) (names2 : List String)
    (hcap : SEASON_1_LIMIT ≤ claimCount db2) :
    (adminUpload db names 0 0).2.1 = K ∧
    (adminUpload db names 0 0).2.2 = 0 ∧
    (adminUpload db names 0 0).1.usernames.map (fun r => r.username) =
      db.usernames.map (fun r => r.username) ++ (names.take K).map normalizeName ∧
    processUsernamesUpload db2 names2 = (db2, 0, 0) := by
  obtain ⟨hmap, hadd, hskip⟩ :=
    adminUpload_firstK K names db 0 0 hw helig hnd hfree (by omega)
  exact ⟨by rw [hadd]; omega, hskip, hmap, processUsernamesUpload_at_limit db2 names2 hcap⟩

/-- C5 amended witness: one free cell, four eligible candidates on the
upload path; the ledger at the limit with a nonempty batch on the confirm
path. -/
theorem c5_amended_witness :
    wfCells dbOneFree ∧
    (∀ n ∈ ["a", "b", "c", "d"],
      normalizeName n ≠ "" ∧ existsUsername dbOneFree (normalizeName n) = false) ∧
    (["a", "b", "c", "d"].map normalizeName).Nodup ∧
    freeCount dbOneFree = 1 ∧
    (["a", "b", "c", "d"] : List String).length = 1 + 3 ∧
    SEASON_1_LIMIT ≤ claimCount dbAtLimit ∧
    ((adminUpload dbOneFree ["a", "b", "c", "d"] 0 0).2.1 = 1 ∧
      (adminUpload dbOneFree ["a", "b", "c", "d"] 0 0).2.2 = 0 ∧
      (adminUpload dbOneFree ["a", "b", "c", "d"] 0 0).1.usernames.map (fun r => r.username) =
        dbOneFree.usernames.map (fun r => r.username) ++
          ((["a", "b", "c", "d"].take 1).map normalizeName) ∧
      processUsernamesUpload dbAtLimit ["x"] = (dbAtLimit, 0, 0)) :=
  ⟨by decide, by decide, by decide, by decide, by decide,
    claimCount_dbAtLimit.symm.le,
    c5_amended dbOneFree ["a", "b", "c", "d"] 1 (by decide) (by decide) (by decide) (by decide)
      (by decide) dbAtLimit ["x"] claimCount_dbAtLimit.symm.le⟩

/-- After an insert guarded by a failing existence check, the ledger's
username column stays duplicate-free. -/
theorem usernames_nodup_after_guarded_insert (db : DBState) (u : String) (cid : Nat)
    (h : (db.usernames.map (fun r => r.username)).Nodup)
    (h2 : existsUsername db u = false) :
    (((markFilled (insertClaim db u cid) cid).usernames).map (fun r => r.username)).Nodup := by
  have husers : (markFilled (insertClaim db u cid) cid).usernames =
      db.usernames ++ [⟨u, cid⟩] := rfl
  rw [husers, List.map_append]
  rw [List.nodup_append]
  refine ⟨h, List.nodup_singleton _, ?_⟩
  intro x hx1 hx2
  have hxu : x = u := by simpa using hx2
  obtain ⟨r, hr, hru⟩ := List.mem_map.mp hx1
  exact (existsUsername_eq_false_iff db u).mp h2 r hr (hru.trans hxu)

/-- The upload route never commits the same username twice. -/
theorem adminUpload_usernames_nodup (names : List String) :
    ∀ (db : DBState) (a s : Nat),
      (db.usernames.map (fun r => r.username)).Nodup →
      ((adminUpload db names a s).1.usernames.map (fun r => r.username)).Nodup := by
  induction names with
  | nil => intro db a s h; exact h
  | cons n rest ih =>
    intro db a s h
    rw [adminUpload_cons]
    by_cases h1 : normalizeName n = ""
    · rw [if_pos h1]
      exact ih db a (s + 1) h
    · rw [if_neg h1]
      by_cases h2 : existsUsername db (normalizeName n)
      · rw [if_pos h2]
        exact ih db a (s + 1) h
      · rw [if_neg h2]
        cases hsel : selectFreeCell db with
        | none => exact h
        | some cid =>
          dsimp only
          have hins : insertClaimOnConflictDoNothing db (normalizeName n) cid =
              insertClaim db (normalizeName n) cid := by
            unfold insertClaimOnConflictDoNothing
            rw [if_neg (by simp [h2])]
          rw [hins]
          exact ih _ (a + 1) s
            (usernames_nodup_after_guarded_insert db _ cid h (by simpa using h2))

/-- The confirm loop never commits the same username twice. -/
theorem puLoop_usernames_nodup (names : List String) :
    ∀ (db : DBState) (cnt a s : Nat),
      (db.usernames.map (fun r => r.username)).Nodup →
      ((puLoop db names cnt a s).1.usernames.map (fun r => r.username)).Nodup := by
  induction names with
  | nil => intro db cnt a s h; exact h
  | cons n rest ih =>
    intro db cnt a s h
    rw [puLoop_cons]
    by_cases h0 : SEASON_1_LIMIT ≤ cnt
    · rw [if_pos h0]
      exact h
    · rw [if_neg h0]
      by_cases h1 : normalizeName n = ""
      · rw [if_pos h1]
        exact ih db cnt a (s + 1) h
      · rw [if_neg h1]
        by_cases h2 : existsUsername db (normalizeName n)
        · rw [if_pos h2]
          exact ih db cnt a (s + 1) h
        · rw [if_neg h2]
          cases hsel : selectFreeCell db with
          | none => exact h
          | some cid =>
            dsimp only
            exact ih _ (cnt + 1) (a + 1) s
              (usernames_nodup_after_guarded_insert db _ cid h (by simpa using h2))

/-- With at least as many free cells as candidates, the upload loop accounts
for every candidate: every one ends up in the added or the skipped count. -/
theorem adminUpload_accounts (names : List String) :
    ∀ (db : DBState) (a s : Nat), wfCells db → names.length ≤ freeCount db →
      (adminUpload db names a s).2.1 + (adminUpload db names a s).2.2 =
        a + s + names.length := by
  induction names with
  | nil => intro db a s _ _; rw [adminUpload_nil]; simp
  | cons n rest ih =>
    intro db a s hw hlen
    rw [List.length_cons] at hlen ⊢
    rw [adminUpload_cons]
    by_cases h1 : normalizeName n = ""
    · rw [if_pos h1]
      have hih := ih db a (s + 1) hw (by omega)
      omega
    · rw [if_neg h1]
      by_cases h2 : existsUsername db (normalizeName n)
      · rw [if_pos h2]
        have hih := ih db a (s + 1) hw (by omega)
        omega
      · rw [if_neg h2]
        cases hsel : selectFreeCell db with
        | none =>
          obtain ⟨cid, hsome⟩ := selectFreeCell_isSome_of_freeCount db (by omega)
          rw [hsome] at hsel
          exact absurd hsel (by simp)
        | some cid =>
          dsimp only
          have hins : insertClaimOnConflictDoNothing db (normalizeName n) cid =
              insertClaim db (normalizeName n) cid := by
            unfold insertClaimOnConflictDoNothing
            rw [if_neg (by simp [h2])]
          rw [hins]
          have hw' : wfCells (markFilled (insertClaim db (normalizeName n) cid) cid) :=
            wfCells_markFilled _ cid (wfCells_insertClaim db _ cid hw)
          have hfree' :
              freeCount (markFilled (insertClaim db (normalizeName n) cid) cid) + 1 =
                freeCount db := by
            have hs : selectFreeCell (insertClaim db (normalizeName n) cid) = some cid := hsel
            have := freeCount_markFilled_of_selected (insertClaim db (normalizeName n) cid) cid
              (wfCells_insertClaim db _ cid hw) hs
            rw [freeCount_insertClaim] at this
            exact this
          have hih := ih _ (a + 1) s hw' (by omega)
          omega

/-- The ledger only grows: a username present before an upload run is still
present afterwards. -/
theorem existsUsername_mono_adminUpload (names : List String) :
    ∀ (db : DBState) (a s : Nat) (u : String), existsUsername db u = true →
      existsUsername (adminUpload db names a s).1 u = true := by
  induction names with
  | nil => intro db a s u h; exact h
  | cons n rest ih =>
    intro db a s u h
    rw [adminUpload_cons]
    by_cases h1 : normalizeName n = ""
    · rw [if_pos h1]
      exact ih db a (s + 1) u h
    · rw [if_neg h1]
      by_cases h2 : existsUsername db (normalizeName n)
      · rw [if_pos h2]
        exact ih db a (s + 1) u h
      · rw [if_neg h2]
        cases hsel : selectFreeCell db with
        | none => exact h
        | some cid =>
          dsimp only
          apply ih
          rw [existsUsername_markFilled]
          unfold insertClaimOnConflictDoNothing
          rw [if_neg (by simp [h2])]
          rw [existsUsername_insertClaim, h, Bool.true_or]

/-- After the upload loop has processed a prefix containing an occurrence of
a non-empty normalized identifier, with enough free cells for the prefix,
that identifier is in the ledger: it was either allocated there or already
present. -/
theorem existsUsername_after_occurrence (pre : List String) :
    ∀ (db : DBState) (a s : Nat) (u : String), wfCells db → pre.length ≤ freeCount db →
      u ≠ "" → (∃ e ∈ pre, normalizeName e = u) →
      existsUsername (adminUpload db pre a s).1 u = true := by
  induction pre with
  | nil =>
    intro db a s u _ _ _ hdup
    simp at hdup
  | cons n rest ih =>
    intro db a s u hw hlen hne hdup
    rw [List.length_cons] at hlen
    rw [adminUpload_cons]
    rcases hdup with ⟨e, he, heq⟩
    rcases List.mem_cons.mp he with rfl | hmem
    · by_cases h1 : normalizeName e = ""
      · exact absurd (heq.symm.trans h1) hne
      · rw [if_neg h1]
        by_cases h2 : existsUsername db (normalizeName e)
        · rw [if_pos h2]
          refine existsUsername_mono_adminUpload rest db a (s + 1) u ?_
          rw [← heq]
          exact h2
        · rw [if_neg h2]
          obtain ⟨cid, hsel⟩ := selectFreeCell_isSome_of_freeCount db (by omega)
          rw [hsel]
          dsimp only
          apply existsUsername_mono_adminUpload
          rw [existsUsername_markFilled]
          unfold insertClaimOnConflictDoNothing
          rw [if_neg (by simp [h2])]
          rw [existsUsername_insertClaim]
          rw [heq]
          simp
    · by_cases h1 : normalizeName n = ""
      · rw [if_pos h1]
        exact ih db a (s + 1) u hw (by omega) hne ⟨e, hmem, heq⟩
      · rw [if_neg h1]
        by_cases h2 : existsUsername db (normalizeName n)
        · rw [if_pos h2]
          exact ih db a (s + 1) u hw (by omega) hne ⟨e, hmem, heq⟩
        · rw [if_neg h2]
          obtain ⟨cid, hsel⟩ := selectFreeCell_isSome_of_freeCount db (by omega)
          rw [hsel]
          dsimp only
          have hins : insertClaimOnConflictDoNothing db (normalizeName n) cid =
              insertClaim db (normalizeName n) cid := by
            unfold insertClaimOnConflictDoNothing
            rw [if_neg (by simp [h2])]
          rw [hins]
          refine ih _ (a + 1) s u ?_ ?_ hne ⟨e, hmem, heq⟩
          · exact wfCells_markFilled _ cid (wfCells_insertClaim db _ cid hw)
          · have hs : selectFreeCell (insertClaim db (normalizeName n) cid) = some cid := hsel
            have hfc := freeCount_markFilled_of_selected (insertClaim db (normalizeName n) cid)
              cid (wfCells_insertClaim db _ cid hw) hs
            rw [freeCount_insertClaim] at hfc
            omega

/-- With enough free cells for its first part, the upload loop processes an
appended batch sequentially: run the first part, then the second part from
the resulting state and counters. -/
theorem adminUpload_append (l1 : List String) :
    ∀ (l2 : List String) (db : DBState) (a s : Nat), wfCells db → l1.length ≤ freeCount db →
      adminUpload db (l1 ++ l2) a s =
        adminUpload (adminUpload db l1 a s).1 l2 (adminUpload db l1 a s).2.1
          (adminUpload db l1 a s).2.2 := by
  induction l1 with
  | nil =>
    intro l2 db a s _ _
    rw [List.nil_append, adminUpload_nil]
  | cons n rest ih =>
    intro l2 db a s hw hlen
    rw [List.length_cons] at hlen
    rw [List.cons_append, adminUpload_cons, adminUpload_cons]
    by_cases h1 : normalizeName n = ""
    · simp only [if_pos h1]
      exact ih l2 db a (s + 1) hw (by omega)
    · simp only [if_neg h1]
      by_cases h2 : existsUsername db (normalizeName n)
      · simp only [if_pos h2]
        exact ih l2 db a (s + 1) hw (by omega)
      · simp only [if_neg h2]
        obtain ⟨cid, hsel⟩ := selectFreeCell_isSome_of_freeCount db (by omega)
        rw [hsel]
        dsimp only
        have hins : insertClaimOnConflictDoNothing db (normalizeName n) cid =
            insertClaim db (normalizeName n) cid := by
          unfold insertClaimOnConflictDoNothing
          rw [if_neg (by simp [h2])]
        rw [hins]
        have hw' : wfCells (markFilled (insertClaim db (normalizeName n) cid) cid) :=
          wfCells_markFilled _ cid (wfCells_insertClaim db _ cid hw)
        have hs : selectFreeCell (insertClaim db (normalizeName n) cid) = some cid := hsel
        have hfc := freeCount_markFilled_of_selected (insertClaim db (normalizeName n) cid)
          cid (wfCells_insertClaim db _ cid hw) hs
        rw [freeCount_insertClaim] at hfc
        exact ih l2 _ (a + 1) s hw' (by omega)

/-- A candidate whose normalization is empty or already in the ledger is
counted as skipped: the loop increments the skipped counter by one and
changes nothing else before continuing with the rest of the batch. -/
theorem adminUpload_skip_step (db : DBState) (d : String) (post : List String) (a s : Nat)
    (h : normalizeName d = "" ∨ existsUsername db (normalizeName d) = true) :
    adminUpload db (d :: post) a s = adminUpload db post a (s + 1) := by
  rw [adminUpload_cons]
  rcases h with h | h
  · rw [if_pos h]
  · by_cases h1 : normalizeName d = ""
    · rw [if_pos h1]
    · rw [if_neg h1, if_pos h]

/-- C9 amended: on both allocation paths the ledger never ends up holding
the same normalized identifier twice, so at most the first occurrence of an
identifier is allocated; and on the upload path, with enough free cells for
the batch (so the loop reaches every candidate), a later occurrence d of an
identifier occurring in the prefix before it is counted as skipped: running
the batch equals running the prefix, incrementing the skipped counter by one
for d while leaving the state and the added counter untouched, and
continuing with the rest — with every candidate of the batch reflected in
the added or skipped count. -/
theorem c9_amended (db : DBState) (pre : List String) (d : String) (post : List String)
    (a s : Nat) (hw : wfCells db)
    (hnd : (db.usernames.map (fun r => r.username)).Nodup)
    (hlen : (pre ++ d :: post).length ≤ freeCount db)
    (hdup : ∃ e ∈ pre, normalizeName e = normalizeName d)
    (db2 : DBState) (names2 : List String)
    (hnd2 : (db2.usernames.map (fun r => r.username)).Nodup) :
    adminUpload db (pre ++ d :: post) a s =
      adminUpload (adminUpload db pre a s).1 post (adminUpload db pre a s).2.1
        ((adminUpload db pre a s).2.2 + 1) ∧
    (adminUpload db (pre ++ d :: post) a s).2.1 +
        (adminUpload db (pre ++ d :: post) a s).2.2 =
      a + s + (pre ++ d :: post).length ∧
    ((adminUpload db (pre ++ d :: post) a s).1.usernames.map (fun r => r.username)).Nodup ∧
    ((processUsernamesUpload db2 names2).1.usernames.map (fun r => r.username)).Nodup := by
  have hpre : pre.length ≤ freeCount db := by
    rw [List.length_append] at hlen
    omega
  have hcomp := adminUpload_append pre (d :: post) db a s hw hpre
  have hskip : adminUpload (adminUpload db pre a s).1 (d :: post) (adminUpload db pre a s).2.1
      (adminUpload db pre a s).2.2 =
      adminUpload (adminUpload db pre a s).1 post (adminUpload db pre a s).2.1
        ((adminUpload db pre a s).2.2 + 1) := by
    apply adminUpload_skip_step
    by_cases hne : normalizeName d = ""
    · exact Or.inl hne
    · exact Or.inr (existsUsername_after_occurrence pre db a s (normalizeName d) hw hpre
        hne hdup)
  refine ⟨hcomp.trans hskip, ?_, ?_, ?_⟩
  · exact adminUpload_accounts (pre ++ d :: post) db a s hw hlen
  · exact adminUpload_usernames_nodup (pre ++ d :: post) db a s hnd
  · unfold processUsernamesUpload
    exact puLoop_usernames_nodup names2 db2 (claimCount db2) 0 0 hnd2

/-- C9 amended witness: the batch ["a", "a"] split as prefix ["a"] plus the
duplicate occurrence "a", on a fresh grid with two free cells, and the same
duplicate batch on the confirm path. -/
theorem c9_amended_witness :
    wfCells dbTwoFree ∧
    (dbTwoFree.usernames.map (fun r => r.username)).Nodup ∧
    ((["a"] ++ "a" :: []).length ≤ freeCount dbTwoFree) ∧
    (∃ e ∈ ["a"], normalizeName e = normalizeName "a") ∧
    (adminUpload dbTwoFree (["a"] ++ "a" :: []) 0 0 =
        adminUpload (adminUpload dbTwoFree ["a"] 0 0).1 []
          (adminUpload dbTwoFree ["a"] 0 0).2.1
          ((adminUpload dbTwoFree ["a"] 0 0).2.2 + 1) ∧
      (adminUpload dbTwoFree (["a"] ++ "a" :: []) 0 0).2.1 +
          (adminUpload dbTwoFree (["a"] ++ "a" :: []) 0 0).2.2 =
        0 + 0 + (["a"] ++ "a" :: []).length ∧
      ((adminUpload dbTwoFree (["a"] ++ "a" :: []) 0 0).1.usernames.map
        (fun r => r.username)).Nodup ∧
      ((processUsernamesUpload dbTwoFree ["a", "a"]).1.usernames.map
        (fun r => r.username)).Nodup) :=
  ⟨by decide, by decide, by decide, by decide,
    c9_amended dbTwoFree ["a"] "a" [] 0 0 (by decide) (by decide) (by decide) (by decide)
      dbTwoFree ["a", "a"] (by decide)⟩

end GridBackend
